import Mathlib

/-!
Verification of the RAG core of the DocumentSearch repository
(`rag_processor.py`), against its natural-language specification.

Python strings are modelled as lists of characters (`PyStr`), the SQLite
tables as Lean lists of row structures, the two on-disk artifact files
(`faiss_index.idx` and `document_chunks.pkl`) as `Option`-valued fields of
a file-system record, and float vectors as lists of integers (an exact
scalar stand-in with decidable arithmetic).  The sentence-embedding
model is an uninterpreted parameter `model : PyStr → List ℤ`.  Runs that
raise an exception inside a `try/except` block are modelled by an
explicit failure-point parameter threaded through the operation.
-/

/-- Python strings, modelled as lists of characters. -/
abbrev PyStr := List Char

/-- Helper for writing concrete Python strings of the model. -/
def str (s : String) : PyStr := s.toList

/-- Whitespace test used by Python `str.split()` with no arguments. -/
def isSpace (c : Char) : Bool := c.isWhitespace

/-- Accumulator-based word splitter: `splitAux cs acc` scans `cs`, with
`acc` holding the (non-space) characters of the word currently being
read.  Runs of whitespace separate words and empty pieces are dropped,
exactly as in Python `str.split()` with no arguments. -/
def splitAux : List Char → List Char → List (List Char)
  | [], acc => if acc = [] then [] else [acc]
  | c :: cs, acc =>
    if isSpace c then
      if acc = [] then splitAux cs [] else acc :: splitAux cs []
    else
      splitAux cs (acc ++ [c])

/-- Python `text.split()`: split on runs of whitespace, dropping empty
pieces. -/
def pySplit (cs : PyStr) : List PyStr := splitAux cs []

/-- Python `' '.join(words)`: interleave a single space between the
given pieces. -/
def joinWords : List PyStr → PyStr
  | [] => []
  | w :: ws =>
    match ws with
    | [] => w
    | _ :: _ => w ++ ' ' :: joinWords ws

/-- Python `s.strip()`: remove leading and trailing whitespace. -/
def pyStrip (cs : PyStr) : PyStr :=
  ((cs.dropWhile isSpace).reverse.dropWhile isSpace).reverse

/-- Exceptions the modelled Python code can raise. -/
inductive PyError where
  /-- `ValueError`, as raised by `range(0, n, 0)`. -/
  | valueError : PyError
deriving DecidableEq

/-- Window start offsets produced by Python `range(0, stop, step)` for a
positive `step`: `0, step, 2*step, ...` while below `stop`. -/
def startsList (stop step : Nat) : List Nat :=
  (List.range ((stop + step - 1) / step)).map (fun t => t * step)

/-- Translation of `RAGProcessor.chunk_text` (rag_processor.py lines
47-57).  The Python loop `for i in range(0, len(words), chunk_size -
overlap)` raises `ValueError` when the step is zero, iterates zero times
when the step is negative, and otherwise slides a window of `chunk_size`
words forward by the step; windows that are empty after `strip()` are
skipped. -/
def chunk_text (text : PyStr) (chunk_size : Nat := 500) (overlap : Nat := 50) :
    Except PyError (List PyStr) :=
  let words := pySplit text
  let step : Int := (chunk_size : Int) - (overlap : Int)
  if step = 0 then
    .error .valueError
  else if step < 0 then
    .ok []
  else
    .ok ((((startsList words.length (chunk_size - overlap)).map
      (fun i => joinWords ((words.drop i).take chunk_size))).filter
        (fun ch => !(pyStrip ch).isEmpty)))

/-! Basic facts about the word splitter. -/

/-- Every word produced by `splitAux` from a nonempty, space-free
accumulator state is nonempty and space-free. -/
theorem splitAux_words_ok (cs : List Char) :
    ∀ acc, (∀ c ∈ acc, isSpace c = false) →
      ∀ w ∈ splitAux cs acc, w ≠ [] ∧ ∀ c ∈ w, isSpace c = false := by
  induction cs with
  | nil =>
    intro acc hacc w hw
    simp only [splitAux] at hw
    split at hw
    · simp at hw
    · next hne =>
      simp only [List.mem_singleton] at hw
      subst hw
      exact ⟨hne, hacc⟩
  | cons c cs ih =>
    intro acc hacc w hw
    simp only [splitAux] at hw
    by_cases hsp : isSpace c
    · simp only [hsp, if_true] at hw
      by_cases hemp : acc = []
      · simp only [hemp, if_true] at hw
        exact ih [] (by simp) w hw
      · simp only [hemp, if_false, List.mem_cons] at hw
        rcases hw with rfl | hw
        · exact ⟨hemp, hacc⟩
        · exact ih [] (by simp) w hw
    · simp only [hsp, if_false] at hw
      refine ih (acc ++ [c]) ?_ w hw
      intro d hd
      rcases List.mem_append.mp hd with h | h
      · exact hacc d h
      · simp only [List.mem_singleton] at h
        subst h
        simpa using hsp

/-- Words produced by `pySplit` are nonempty and contain no whitespace. -/
theorem pySplit_words_ok (cs : PyStr) :
    ∀ w ∈ pySplit cs, w ≠ [] ∧ ∀ c ∈ w, isSpace c = false := by
  exact splitAux_words_ok cs [] (by simp)

/-- Scanning a space-free word just extends the accumulator. -/
theorem splitAux_append_word (w : List Char) :
    ∀ cs acc, (∀ c ∈ w, isSpace c = false) →
      splitAux (w ++ cs) acc = splitAux cs (acc ++ w) := by
  induction w with
  | nil => intro cs acc _; simp
  | cons c w ih =>
    intro cs acc hw
    have hc : isSpace c = false := hw c (List.mem_cons_self c w)
    simp only [List.cons_append, splitAux, hc, Bool.false_eq_true, if_false,
      List.append_eq]
    rw [ih cs (acc ++ [c]) (fun d hd => hw d (List.mem_cons_of_mem c hd))]
    simp

/-- Round trip: splitting a space-joined list of nonempty, space-free
words recovers exactly that list. -/
theorem pySplit_joinWords (ws : List PyStr)
    (h : ∀ w ∈ ws, w ≠ [] ∧ ∀ c ∈ w, isSpace c = false) :
    pySplit (joinWords ws) = ws := by
  induction ws with
  | nil => simp [joinWords, pySplit, splitAux]
  | cons w ws ih =>
    obtain ⟨hw, hwsp⟩ := h w (List.mem_cons_self w ws)
    cases ws with
    | nil =>
      show splitAux w [] = [w]
      have := splitAux_append_word w [] [] hwsp
      simp only [List.append_nil, List.nil_append] at this
      rw [this]
      simp [splitAux, hw]
    | cons w2 ws2 =>
      show splitAux (w ++ ' ' :: joinWords (w2 :: ws2)) [] = w :: w2 :: ws2
      rw [splitAux_append_word w (' ' :: joinWords (w2 :: ws2)) [] hwsp]
      simp only [List.nil_append, splitAux]
      have hsp : isSpace ' ' = true := by decide
      simp only [hsp, if_true, hw, if_false]
      exact congrArg (w :: ·) (ih (fun x hx => h x (List.mem_cons_of_mem w hx)))

/-- A list whose head is not whitespace survives `strip()` nonempty. -/
theorem pyStrip_ne_nil (c : Char) (cs : List Char) (hc : isSpace c = false) :
    pyStrip (c :: cs) ≠ [] := by
  intro hcontra
  unfold pyStrip at hcontra
  rw [List.dropWhile_cons_of_neg (by simp [hc])] at hcontra
  have h2 : (c :: cs).reverse.dropWhile isSpace = [] :=
    List.reverse_eq_nil_iff.mp hcontra
  have h3 : ∀ x ∈ (c :: cs).reverse, isSpace x = true :=
    List.dropWhile_eq_nil_iff.mp h2
  have h4 : c ∈ (c :: cs).reverse := by simp
  rw [h3 c h4] at hc
  exact Bool.true_eq_false.mp hc

/-- Joining a nonempty list of words begins with the first word. -/
theorem joinWords_cons_eq_append (w : PyStr) (ws : List PyStr) :
    ∃ t, joinWords (w :: ws) = w ++ t := by
  cases ws with
  | nil => exact ⟨[], by simp [joinWords]⟩
  | cons w2 ws2 => exact ⟨' ' :: joinWords (w2 :: ws2), rfl⟩

deriving instance DecidableEq for Except

/-! Facts about the window start offsets. -/

/-- Every generated window start lies strictly below `stop`. -/
theorem mem_startsList_lt {stop step s : Nat} (hstep : 0 < step)
    (hs : s ∈ startsList stop step) : s < stop := by
  unfold startsList at hs
  obtain ⟨t, ht, rfl⟩ := List.mem_map.mp hs
  rw [List.mem_range] at ht
  rcases Nat.eq_zero_or_pos stop with hstop | hstop
  · subst hstop
    rw [Nat.zero_add, Nat.div_eq_of_lt (by omega)] at ht
    omega
  · have h2 : (t + 1) * step ≤ stop + step - 1 :=
      (Nat.le_div_iff_mul_le hstep).mp ht
    have h3 : (t + 1) * step = t * step + step := by ring
    omega

/-- The start of the window containing word `j` is generated. -/
theorem div_mul_mem_startsList {stop step j : Nat} (hstep : 0 < step)
    (hj : j < stop) : j / step * step ∈ startsList stop step := by
  unfold startsList
  refine List.mem_map.mpr ⟨j / step, List.mem_range.mpr ?_, rfl⟩
  have h1 : j / step * step ≤ j := Nat.div_mul_le_self j step
  have h2 : (j / step + 1) * step = j / step * step + step := by ring
  have h3 : j / step + 1 ≤ (stop + step - 1) / step :=
    (Nat.le_div_iff_mul_le hstep).mpr (by omega)
  omega

/-- The k-th window start is `k * step`. -/
theorem startsList_getElem {stop step k : Nat}
    (hk : k < (startsList stop step).length) :
    (startsList stop step)[k] = k * step := by
  unfold startsList at hk ⊢
  rw [List.getElem_map]
  congr 1
  exact List.getElem_range k _

/-- With a valid configuration (`overlap < chunk_size`) no window is
skipped by the emptiness test, so `chunk_text` is exactly the sliding
window construction. -/
theorem chunk_text_ok (text : PyStr) (C O : Nat) (h : O < C) :
    chunk_text text C O =
      .ok ((startsList (pySplit text).length (C - O)).map
        (fun s => joinWords (((pySplit text).drop s).take C))) := by
  have h0 : ¬((C : Int) - (O : Int) = 0) := by omega
  have h1 : ¬((C : Int) - (O : Int) < 0) := by omega
  simp only [chunk_text, h0, if_false, h1]
  congr 1
  apply List.filter_eq_self.mpr
  intro ch hch
  obtain ⟨s, hs, rfl⟩ := List.mem_map.mp hch
  have hslt : s < (pySplit text).length := mem_startsList_lt (by omega) hs
  have hwok := pySplit_words_ok text
  have hdrop : (pySplit text).drop s ≠ [] := by
    intro hx
    rw [List.drop_eq_nil_iff] at hx
    omega
  obtain ⟨w, rest, hwin⟩ : ∃ w rest, ((pySplit text).drop s).take C = w :: rest := by
    cases hwd : (pySplit text).drop s with
    | nil => exact absurd hwd hdrop
    | cons a t =>
      cases C with
      | zero => omega
      | succ n => exact ⟨a, t.take n, by simp [hwd]⟩
  rw [hwin]
  obtain ⟨hwne, hwsp⟩ := hwok w (by
    have hmem : w ∈ ((pySplit text).drop s).take C := by
      rw [hwin]; exact List.mem_cons_self _ _
    exact ((List.take_sublist _ _).trans (List.drop_sublist _ _)).subset hmem)
  obtain ⟨c, cs, rfl⟩ : ∃ c cs, w = c :: cs := by
    cases w with
    | nil => exact absurd rfl hwne
    | cons c cs => exact ⟨c, cs, rfl⟩
  obtain ⟨t, hjw⟩ := joinWords_cons_eq_append (c :: cs) rest
  rw [hjw]
  simp only [List.cons_append]
  have hne := pyStrip_ne_nil c (cs ++ t) (hwsp c (List.mem_cons_self _ _))
  simp [hne]

/-! Claim C1: the chunking contract. -/

/-- C1 is false as stated, on two counts, both shown at explicit inputs.
First, the spec's own scenario is wrong: with window starts 0, 3, 6 and
chunk size 5, the third window is `words[6:11]`, i.e. `"the lazy dog"`,
not `"lazy dog"`.  Second, the unconditional "consecutive chunks overlap
by exactly O words (except possibly the final chunk)" fails: for the
5-word text `"a b c d e"` with chunk_size 4 and overlap 3 the third and
fourth chunks (`"c d e"` and `"d e"`, neither of them final among the
five chunks) share only 2 words. -/
theorem C1_counterexample :
    chunk_text (str "The quick brown fox jumps over the lazy dog") 5 2 =
      .ok [str "The quick brown fox jumps", str "fox jumps over the lazy",
        str "the lazy dog"] ∧
    chunk_text (str "The quick brown fox jumps over the lazy dog") 5 2 ≠
      .ok [str "The quick brown fox jumps", str "fox jumps over the lazy",
        str "lazy dog"] ∧
    chunk_text (str "a b c d e") 4 3 =
      .ok [str "a b c d", str "b c d e", str "c d e", str "d e", str "e"] ∧
    (pySplit (str "c d e")).drop ((pySplit (str "c d e")).length - 3) ≠
      (pySplit (str "d e")).take 3 := by
  exact ⟨by decide, by decide, by decide, by decide⟩

/-- C1 (amended): for every text and chunk_size `C` > overlap `O` ≥ 0,
`chunk_text` returns exactly the sliding-window chunks with window
starts `0, C-O, 2(C-O), ...`; every word of the text appears in at
least one chunk; every consecutive pair of chunks whose earlier chunk
is a full window of `C` words overlaps by exactly `O` words (a
truncated window near the end of the text may overlap by fewer); no
chunk is empty after trimming; and the 9-word example with `C = 5`,
`O = 2` yields `["The quick brown fox jumps", "fox jumps over the
lazy", "the lazy dog"]` (window starts 0, 3, 6). -/
theorem C1_amended (text : PyStr) (C O : Nat) (h : O < C) :
    ∃ chunks,
      chunk_text text C O = .ok chunks ∧
      chunks = (startsList (pySplit text).length (C - O)).map
        (fun s => joinWords (((pySplit text).drop s).take C)) ∧
      (∀ j, (hj : j < (pySplit text).length) →
        ∃ ch ∈ chunks, (pySplit text)[j] ∈ pySplit ch) ∧
      (∀ k, (hk : k + 1 < chunks.length) →
        (pySplit chunks[k]).length = C →
        (pySplit chunks[k]).drop (C - O) = (pySplit chunks[k + 1]).take O ∧
        ((pySplit chunks[k + 1]).take O).length = O) ∧
      (∀ ch ∈ chunks, pyStrip ch ≠ []) ∧
      chunk_text (str "The quick brown fox jumps over the lazy dog") 5 2 =
        .ok [str "The quick brown fox jumps", str "fox jumps over the lazy",
          str "the lazy dog"] := by
  have hwinok : ∀ s, ∀ w ∈ ((pySplit text).drop s).take C,
      w ≠ [] ∧ ∀ c ∈ w, isSpace c = false := fun s w hw =>
    pySplit_words_ok text w
      (((List.take_sublist _ _).trans (List.drop_sublist _ _)).subset hw)
  refine ⟨_, chunk_text_ok text C O h, rfl, ?_, ?_, ?_, by decide⟩
  · -- every word of the text appears in some chunk
    intro j hj
    have hstep : 0 < C - O := by omega
    have hmem : j / (C - O) * (C - O) ∈ startsList (pySplit text).length (C - O) :=
      div_mul_mem_startsList hstep hj
    set s := j / (C - O) * (C - O) with hsdef
    refine ⟨joinWords (((pySplit text).drop s).take C),
      List.mem_map_of_mem _ hmem, ?_⟩
    rw [pySplit_joinWords _ (hwinok s)]
    have hsle : s ≤ j := Nat.div_mul_le_self j (C - O)
    have hdm : (C - O) * (j / (C - O)) + j % (C - O) = j := Nat.div_add_mod j (C - O)
    have hmod : j % (C - O) < C - O := Nat.mod_lt j hstep
    have hcomm : s = (C - O) * (j / (C - O)) := by rw [hsdef, Nat.mul_comm]
    have hjs : j - s < C := by omega
    have hget : (((pySplit text).drop s).take C)[j - s]? = some ((pySplit text)[j]) := by
      rw [List.getElem?_take, if_pos hjs, List.getElem?_drop]
      have hss : s + (j - s) = j := by omega
      rw [hss, List.getElem?_eq_getElem hj]
    obtain ⟨hlt, heq⟩ := List.getElem?_eq_some_iff.mp hget
    exact heq ▸ List.getElem_mem hlt
  · -- consecutive full-window chunks overlap by exactly O words
    intro k hk hlenk
    have hmaplen : ∀ m, (hm : m < ((startsList (pySplit text).length (C - O)).map
        (fun s => joinWords (((pySplit text).drop s).take C))).length) →
        ((startsList (pySplit text).length (C - O)).map
          (fun s => joinWords (((pySplit text).drop s).take C)))[m] =
          joinWords (((pySplit text).drop (m * (C - O))).take C) := by
      intro m hm
      rw [List.getElem_map, startsList_getElem (by rw [List.length_map] at hm; exact hm)]
    have hgk := hmaplen k (by omega)
    have hgk1 := hmaplen (k + 1) hk
    rw [hgk, hgk1, pySplit_joinWords _ (hwinok (k * (C - O))),
      pySplit_joinWords _ (hwinok ((k + 1) * (C - O)))]
    rw [hgk, pySplit_joinWords _ (hwinok (k * (C - O)))] at hlenk
    have hfull : C ⊓ ((pySplit text).length - k * (C - O)) = C := by
      rw [← List.length_drop, ← List.length_take]
      exact hlenk
    have hCle : k * (C - O) + C ≤ (pySplit text).length := by
      rcases Nat.le_total C ((pySplit text).length - k * (C - O)) with hle | hle
      · omega
      · rw [Nat.min_eq_right hle] at hfull
        omega
    constructor
    · rw [List.drop_take, List.drop_drop, List.take_take]
      have hCO : C - (C - O) = O := by omega
      have hmin : O ⊓ C = O := Nat.min_eq_left (le_of_lt h)
      have hsk1 : (k + 1) * (C - O) = k * (C - O) + (C - O) := by ring
      rw [hCO, hmin, hsk1]
    · rw [List.take_take, Nat.min_eq_left (le_of_lt h), List.length_take,
        List.length_drop]
      have hsk1 : (k + 1) * (C - O) = k * (C - O) + (C - O) := by ring
      omega
  · -- no chunk is empty after trimming
    intro ch hch
    obtain ⟨s, hs, rfl⟩ := List.mem_map.mp hch
    have hslt : s < (pySplit text).length := mem_startsList_lt (by omega) hs
    have hdrop : (pySplit text).drop s ≠ [] := by
      intro hx
      rw [List.drop_eq_nil_iff] at hx
      omega
    obtain ⟨w, rest, hwin⟩ : ∃ w rest,
        ((pySplit text).drop s).take C = w :: rest := by
      cases hwd : (pySplit text).drop s with
      | nil => exact absurd hwd hdrop
      | cons a t =>
        cases C with
        | zero => omega
        | succ n => exact ⟨a, t.take n, by simp [hwd]⟩
    rw [hwin]
    obtain ⟨hwne, hwsp⟩ := hwinok s w (by rw [hwin]; exact List.mem_cons_self _ _)
    obtain ⟨c, cs, rfl⟩ : ∃ c cs, w = c :: cs := by
      cases w with
      | nil => exact absurd rfl hwne
      | cons c cs => exact ⟨c, cs, rfl⟩
    obtain ⟨t, hjw⟩ := joinWords_cons_eq_append (c :: cs) rest
    rw [hjw]
    simp only [List.cons_append]
    exact pyStrip_ne_nil c (cs ++ t) (hwsp c (List.mem_cons_self _ _))

/-- Witness for C1: the amended theorem applied at the spec's concrete
scenario. -/
theorem C1_witness :
    (2 : Nat) < 5 ∧
    chunk_text (str "The quick brown fox jumps over the lazy dog") 5 2 =
      .ok [str "The quick brown fox jumps", str "fox jumps over the lazy",
        str "the lazy dog"] := by
  refine ⟨by decide, ?_⟩
  obtain ⟨chunks, -, -, -, -, -, hex⟩ :=
    C1_amended (str "The quick brown fox jumps over the lazy dog") 5 2 (by decide)
  exact hex

/-! State model: the SQLite tables of documents.db and the two artifact
files written by the index rebuild. -/

/-- Row of the `documents` table (created in pdf_processor.py); only the
columns the RAG core reads are modelled. -/
structure DocRow where
  id : Nat
  filename : PyStr
deriving DecidableEq

/-- Row of the `document_chunks` table (rag_processor.py lines 24-33). -/
structure ChunkRow where
  id : Nat
  document_id : Nat
  chunk_text : PyStr
  chunk_index : Nat
  page_number : Nat
deriving DecidableEq

/-- Row of the `embeddings` table (lines 35-42); the pickled
`embedding_data` blob is modelled as the vector itself. -/
structure EmbRow where
  id : Nat
  chunk_id : Nat
  vec : List ℤ
deriving DecidableEq

/-- The relational store.  `nextChunkId` and `nextEmbId` model the
AUTOINCREMENT counters of the two RAG tables. -/
structure DB where
  documents : List DocRow
  chunks : List ChunkRow
  embeddings : List EmbRow
  nextChunkId : Nat
  nextEmbId : Nat
deriving DecidableEq

/-- The pickled metadata bundle written to `document_chunks.pkl`
(lines 133-140). -/
structure Metadata where
  chunk_texts : List PyStr
  chunk_ids : List Nat
  filenames : List PyStr
deriving DecidableEq

/-- The two artifact files; `none` models an absent file.  The index
file `faiss_index.idx` is modelled by its row matrix. -/
structure FS where
  faiss_index : Option (List (List ℤ))
  chunks_meta : Option Metadata
deriving DecidableEq

/-- One row of the SQL join in `update_faiss_index` (lines 101-106). -/
structure JoinRow where
  vec : List ℤ
  text : PyStr
  cid : Nat
  fname : PyStr
deriving DecidableEq

/-- The join `embeddings JOIN document_chunks ON e.chunk_id = c.id JOIN
documents ON c.document_id = d.id`, scanning embedding rows in storage
order and matching each to its chunk row and that chunk's document
row (ids are primary keys, so `find?` picks the unique match). -/
def joinRows (db : DB) : List JoinRow :=
  db.embeddings.filterMap (fun e =>
    (db.chunks.find? (fun c => c.id == e.chunk_id)).bind (fun c =>
      (db.documents.find? (fun d => d.id == c.document_id)).map (fun d =>
        ⟨e.vec, c.chunk_text, c.id, d.filename⟩)))

/-- Failure injection points for `update_faiss_index`: its whole body is
wrapped in `try/except`, so a raised exception is swallowed after the
file writes that preceded it have already happened. -/
inductive RebuildFail where
  | ok : RebuildFail
  | beforeWrites : RebuildFail
  | betweenWrites : RebuildFail
deriving DecidableEq

/-- Translation of `RAGProcessor.update_faiss_index` (lines 95-145):
read the full join, return early if it is empty, otherwise write the
index file `faiss_index.idx` and then the metadata file
`document_chunks.pkl` as two separate, non-atomic writes. -/
def update_faiss_index (fail : RebuildFail) (db : DB) (fs : FS) : FS :=
  match fail with
  | .beforeWrites => fs
  | .ok | .betweenWrites =>
    let rows := joinRows db
    if rows.isEmpty then fs
    else
      let fs1 : FS := { fs with faiss_index := some (rows.map JoinRow.vec) }
      let meta : Metadata :=
        ⟨rows.map JoinRow.text, rows.map JoinRow.cid, rows.map JoinRow.fname⟩
      match fail with
      | .betweenWrites => fs1
      | _ => { fs1 with chunks_meta := some meta }

/-- Inner product of two vectors. -/
def dotQ (a b : List ℤ) : ℤ := (List.zipWith (fun x y => x * y) a b).sum

/-- Result ordering of the flat inner-product index: higher score first,
equal scores by ascending row index. -/
def entryOrd (a b : Nat × ℤ) : Prop := b.2 < a.2 ∨ (a.2 = b.2 ∧ a.1 ≤ b.1)

instance : DecidableRel entryOrd := fun a b => by
  unfold entryOrd
  infer_instance

instance : IsTotal (Nat × ℤ) entryOrd where
  total a b := by
    unfold entryOrd
    rcases lt_trichotomy a.2 b.2 with h | h | h
    · exact Or.inr (Or.inl h)
    · rcases Nat.le_total a.1 b.1 with hle | hle
      · exact Or.inl (Or.inr ⟨h, hle⟩)
      · exact Or.inr (Or.inr ⟨h.symm, hle⟩)
    · exact Or.inl (Or.inl h)

instance : IsTrans (Nat × ℤ) entryOrd where
  trans a b c hab hbc := by
    unfold entryOrd at hab hbc ⊢
    rcases hab with hab | ⟨hab1, hab2⟩
    · rcases hbc with hbc | ⟨hbc1, hbc2⟩
      · exact Or.inl (lt_trans hbc hab)
      · exact Or.inl (hbc1 ▸ hab)
    · rcases hbc with hbc | ⟨hbc1, hbc2⟩
      · exact Or.inl (hab1 ▸ hbc)
      · exact Or.inr ⟨hab1.trans hbc1, le_trans hab2 hbc2⟩

/-- Modelled from the documented behavior of `faiss.IndexFlatIP.search`
on a single query vector: the inner product of every stored row with the
query is computed, the `k` best are returned sorted by decreasing score
(equal scores in row order), and when fewer than `k` rows exist the
result is padded to length `k` with label `-1` and a "minus infinity"
score, modelled as `none`. -/
def faissSearchEntries (index : List (List ℤ)) (q : List ℤ) (k : Nat) :
    List (Int × Option ℤ) :=
  let scored := index.enum.map (fun p => (p.1, dotQ q p.2))
  let top := (scored.insertionSort entryOrd).take k
  top.map (fun p => ((p.1 : Int), some p.2)) ++
    List.replicate (k - top.length) ((-1 : Int), (none : Option ℤ))

/-- Python list indexing with an `int` index: negative indices address
from the end of the list; out of range raises `IndexError`, modelled as
`none`. -/
def pyGet? {α : Type} (l : List α) (i : Int) : Option α :=
  if 0 ≤ i then l[i.toNat]?
  else if (-i).toNat ≤ l.length then l[l.length - (-i).toNat]? else none

/-- One element of the result list built by `search_documents`
(lines 165-171). -/
structure SearchResult where
  chunk_text : PyStr
  filename : PyStr
  chunk_id : Nat
  similarity_score : Option ℤ
  rank : Nat
deriving DecidableEq

/-- The result-building loop of `search_documents` (lines 162-171):
`rank` counts every scanned entry (Python `enumerate`), the guard `idx <
len(metadata['chunk_texts'])` admits every index below the metadata
length — including the negative padding label `-1`, which then wraps to
the last metadata entry — and an out-of-range metadata access raises
`IndexError`, aborting the whole search. -/
def buildResults (meta : Metadata) : List (Int × Option ℤ) → Nat →
    Option (List SearchResult)
  | [], _ => some []
  | (idx, score) :: rest, i =>
    if idx < (meta.chunk_texts.length : Int) then
      match pyGet? meta.chunk_texts idx, pyGet? meta.filenames idx,
          pyGet? meta.chunk_ids idx with
      | some t, some f, some cid =>
        (buildResults meta rest (i + 1)).map
          (fun rs => (⟨t, f, cid, score, i + 1⟩ : SearchResult) :: rs)
      | _, _, _ => none
    else
      buildResults meta rest (i + 1)

/-- Failure injection for `search_documents`: `raised` models an
exception anywhere inside its `try` block (index read, unpickling,
query encoding). -/
inductive SearchFail where
  | ok : SearchFail
  | raised : SearchFail
deriving DecidableEq

/-- Translation of `RAGProcessor.search_documents` (lines 147-177): if
either artifact file is missing, return `[]`; otherwise embed the
query, search the index, and build the ranked result list; any raised
exception degrades to `[]`. -/
def search_documents (model : PyStr → List ℤ) (query : PyStr) (top_k : Nat)
    (fail : SearchFail) (fs : FS) : List SearchResult :=
  match fail with
  | .raised => []
  | .ok =>
    match fs.faiss_index, fs.chunks_meta with
    | some index, some meta =>
      match buildResults meta (faissSearchEntries index (model query) top_k) 0 with
      | some rs => rs
      | none => []
    | _, _ => []

/-- Failure injection for `process_document_for_rag`: which statement of
its `try` block raises.  `insertChunk j` and `insertEmb j` fire only
when the j-th INSERT actually executes. -/
inductive ProcFail where
  | ok : ProcFail
  | insertChunk (j : Nat) : ProcFail
  | encodeFail : ProcFail
  | insertEmb (j : Nat) : ProcFail
  | commitFail : ProcFail
  | indexFail (rf : RebuildFail) : ProcFail
deriving DecidableEq

/-- Whether the injected failure hits the j-th chunk INSERT. -/
def hitsChunkInsert : ProcFail → Nat → Bool
  | .insertChunk j, n => decide (j < n)
  | _, _ => false

/-- Whether the injected failure hits the j-th embedding INSERT. -/
def hitsEmbInsert : ProcFail → Nat → Bool
  | .insertEmb j, n => decide (j < n)
  | _, _ => false

/-- The failure injected into the index rebuild that runs after the
commit. -/
def rebuildFailOf : ProcFail → RebuildFail
  | .indexFail rf => rf
  | _ => .ok

/-- Chunk rows inserted for one document: ids continue the
AUTOINCREMENT counter, `chunk_index` is the position in the chunk list,
`page_number` is the constant 1 (line 73). -/
def mkChunkRows (document_id : Nat) (chunks : List PyStr) (firstId : Nat) :
    List ChunkRow :=
  chunks.enum.map (fun p => ⟨firstId + p.1, document_id, p.2, p.1, 1⟩)

/-- Embedding rows inserted for one document, pairing the j-th inserted
chunk id with the j-th encoded vector (`zip(chunk_ids, embeddings)`). -/
def mkEmbRows (vecs : List (List ℤ)) (firstChunkId firstEmbId : Nat) :
    List EmbRow :=
  vecs.enum.map (fun p => ⟨firstEmbId + p.1, firstChunkId + p.1, p.2⟩)

/-- Translation of `RAGProcessor.process_document_for_rag` (lines
59-93).  All table INSERTs run inside one SQLite transaction committed
only at the end; an exception anywhere in the `try` block leaves the
transaction uncommitted (rolled back when the connection is dropped),
is caught, and is reported as `False`.  `update_faiss_index` runs after
the commit and swallows its own exceptions. -/
def process_document_for_rag (model : PyStr → List ℤ) (fail : ProcFail)
    (document_id : Nat) (content : PyStr) (db : DB) (fs : FS) :
    DB × FS × Bool :=
  match chunk_text content 500 50 with
  | .error _ => (db, fs, false)
  | .ok chunks =>
    if hitsChunkInsert fail chunks.length then (db, fs, false)
    else if fail = .encodeFail then (db, fs, false)
    else if hitsEmbInsert fail chunks.length then (db, fs, false)
    else if fail = .commitFail then (db, fs, false)
    else
      let db' : DB := { db with
        chunks := db.chunks ++ mkChunkRows document_id chunks db.nextChunkId,
        embeddings := db.embeddings ++
          mkEmbRows (chunks.map model) db.nextChunkId db.nextEmbId,
        nextChunkId := db.nextChunkId + chunks.length,
        nextEmbId := db.nextEmbId + chunks.length }
      (db', update_faiss_index (rebuildFailOf fail) db' fs, true)

/-- Translation of `RAGProcessor.get_rag_context` (lines 179-191).  The
`:.3f` float rendering of the similarity score is abstracted as a
caller-supplied rendering function `fmt`. -/
def get_rag_context (model : PyStr → List ℤ) (fmt : Option ℤ → PyStr)
    (query : PyStr) (top_k : Nat) (fail : SearchFail) (fs : FS) : PyStr :=
  let results := search_documents model query top_k fail fs
  if results.isEmpty then []
  else
    results.foldl (fun ctx r =>
      ctx ++ (str "From " ++ r.filename ++ str " (similarity: " ++
        fmt r.similarity_score ++ str "):\n") ++ (r.chunk_text ++ str "\n\n"))
      (str "Relevant document excerpts:\n\n")

/-! Concrete states used by counterexamples and witnesses. -/

/-- Store holding one document with one chunk and one embedding. -/
def oneChunkDB : DB :=
  { documents := [⟨1, str "doc.pdf"⟩],
    chunks := [⟨1, 1, str "hello world", 0, 1⟩],
    embeddings := [⟨1, 1, [1]⟩],
    nextChunkId := 2, nextEmbId := 2 }

/-- Constant embedder assigning every text the vector `[1]`. -/
def constModel : PyStr → List ℤ := fun _ => [1]

/-- Artifact files after a successful rebuild over `oneChunkDB`. -/
def oneChunkFS : FS := update_faiss_index .ok oneChunkDB ⟨none, none⟩

/-- The one-chunk store after a second chunk and embedding have been
added (a second processed document chunk). -/
def twoChunkDB : DB :=
  { documents := [⟨1, str "doc.pdf"⟩],
    chunks := [⟨1, 1, str "hello world", 0, 1⟩, ⟨2, 1, str "extra text", 1, 1⟩],
    embeddings := [⟨1, 1, [1]⟩, ⟨2, 2, [2]⟩],
    nextChunkId := 3, nextEmbId := 3 }

/-- Store with a document but an empty embeddings table. -/
def noEmbDB : DB :=
  { documents := [⟨1, str "doc.pdf"⟩],
    chunks := [],
    embeddings := [],
    nextChunkId := 1, nextEmbId := 1 }

/-! Claim C3: the invalid chunking configuration `overlap >= chunk_size`. -/

/-- Claim C3 fails on the code: for `overlap = chunk_size` the Python
`range(0, n, 0)` raises `ValueError` — an unrelated error, not a
`ConfigurationError` — and for `overlap > chunk_size` the call silently
returns no chunks at all rather than clamping; clamping the overlap to
`chunk_size - 1` would instead return every suffix window, as the third
conjunct shows. -/
theorem C3_eval :
    chunk_text (str "a b c") 3 3 = .error .valueError ∧
    chunk_text (str "a b c") 3 4 = .ok [] ∧
    chunk_text (str "a b c") 3 2 = .ok [str "a b c", str "b c", str "c"] := by
  exact ⟨by decide, by decide, by decide⟩

/-! Claim C2: top_k larger than the number of indexed chunks. -/

/-- Claim C2 fails on the code: searching a one-chunk index with
`top_k = 3` returns three results, not one.  The missing hits are
padded by faiss with label `-1`, which passes the `idx < len(...)`
guard and wraps around to the last chunk through Python negative
indexing, so the single chunk is returned three times with ranks 1, 2
and 3 (the two padded copies carrying the minus-infinity score). -/
theorem C2_eval :
    (search_documents constModel (str "query") 3 .ok oneChunkFS).map
        (fun r => (r.chunk_text, r.rank, r.similarity_score)) =
      [(str "hello world", 1, some 1), (str "hello world", 2, none),
        (str "hello world", 3, none)] := by
  decide

/-! Claim C8: the two artifact files as a matched pair. -/

/-- Claim C8 fails on the code: a rebuild over the two-chunk store that
raises between the two file writes leaves the new two-row index on disk
next to the stale one-entry metadata of the previous rebuild.  Both
files exist, so a subsequent search does not treat the index as absent:
it serves a result assembled from the mismatched pair (and even with
rank 2, because the guard silently discards the row whose index has no
metadata). -/
theorem C8_eval :
    (update_faiss_index .betweenWrites twoChunkDB oneChunkFS).faiss_index =
      some [[1], [2]] ∧
    (update_faiss_index .betweenWrites twoChunkDB oneChunkFS).chunks_meta =
      some ⟨[str "hello world"], [1], [str "doc.pdf"]⟩ ∧
    search_documents constModel (str "query") 2 .ok
        (update_faiss_index .betweenWrites twoChunkDB oneChunkFS) =
      [⟨str "hello world", str "doc.pdf", 1, some 1, 2⟩] := by
  exact ⟨by decide, by decide, by decide⟩

/-! Claim C10: the empty-table early return leaves the files alone. -/

/-- Claim C10 (confirmed): when the embeddings table is empty the join
is empty, so `update_faiss_index` returns before any write no matter
where a failure is injected; both artifact files keep their previous
contents and subsequent searches behave exactly as before the call. -/
theorem C10_empty_noop (db : DB) (h : db.embeddings = [])
    (fail : RebuildFail) (fs : FS) :
    update_faiss_index fail db fs = fs ∧
    ∀ (model : PyStr → List ℤ) (query : PyStr) (top_k : Nat) (sf : SearchFail),
      search_documents model query top_k sf (update_faiss_index fail db fs) =
        search_documents model query top_k sf fs := by
  have hrows : joinRows db = [] := by
    unfold joinRows
    rw [h]
    rfl
  have hupd : update_faiss_index fail db fs = fs := by
    unfold update_faiss_index
    cases fail <;> simp [hrows]
  exact ⟨hupd, fun model query top_k sf => by rw [hupd]⟩

/-- Witness for C10 at a concrete store with an empty embeddings table
and leftover artifact files. -/
theorem C10_witness :
    update_faiss_index .ok noEmbDB oneChunkFS = oneChunkFS :=
  (C10_empty_noop noEmbDB rfl .ok oneChunkFS).1

/-! Claim C6: searches degrade to the empty list. -/

/-- Claim C6 (confirmed): if either artifact file is absent, or any
exception is raised inside the search body (index read, unpickling,
query encoding), `search_documents` returns the empty list instead of
propagating an error. -/
theorem C6_search_degrades (model : PyStr → List ℤ) (query : PyStr)
    (top_k : Nat) (fail : SearchFail) (fs : FS)
    (h : fs.faiss_index = none ∨ fs.chunks_meta = none ∨ fail = .raised) :
    search_documents model query top_k fail fs = [] := by
  rcases h with h | h | h
  · cases fail
    · cases hcm : fs.chunks_meta <;> simp [search_documents, h, hcm]
    · rfl
  · cases fail
    · cases hfi : fs.faiss_index <;> simp [search_documents, h, hfi]
    · rfl
  · subst h
    rfl

/-- Witness for C6: a search before any document was processed (both
files absent) returns the empty list. -/
theorem C6_witness :
    search_documents constModel (str "query") 5 .ok ⟨none, none⟩ = [] :=
  C6_search_degrades constModel (str "query") 5 .ok ⟨none, none⟩ (Or.inl rfl)

/-! Claim C5: index/metadata alignment after a successful rebuild. -/

/-- Claim C5 (confirmed): after a successful rebuild over a nonempty
embedding set, the index is the vector column of the full join in
storage order, the three metadata sequences have the same length, and
at every position `i` the index row and all three metadata entries come
from one and the same stored embedding/chunk/document triple. -/
theorem C5_index_aligned (db : DB) (fs : FS) (h : joinRows db ≠ []) :
    ∃ index meta,
      (update_faiss_index .ok db fs).faiss_index = some index ∧
      (update_faiss_index .ok db fs).chunks_meta = some meta ∧
      index = (joinRows db).map JoinRow.vec ∧
      meta.chunk_texts.length = index.length ∧
      meta.chunk_ids.length = index.length ∧
      meta.filenames.length = index.length ∧
      ∀ i, i < index.length →
        ∃ e ∈ db.embeddings, ∃ c ∈ db.chunks, ∃ d ∈ db.documents,
          c.id = e.chunk_id ∧ d.id = c.document_id ∧
          index[i]? = some e.vec ∧
          meta.chunk_texts[i]? = some c.chunk_text ∧
          meta.chunk_ids[i]? = some c.id ∧
          meta.filenames[i]? = some d.filename := by
  have hne : (joinRows db).isEmpty = false := List.isEmpty_eq_false.mpr h
  refine ⟨(joinRows db).map JoinRow.vec,
    ⟨(joinRows db).map JoinRow.text, (joinRows db).map JoinRow.cid,
      (joinRows db).map JoinRow.fname⟩, ?_, ?_, rfl, ?_, ?_, ?_, ?_⟩
  · unfold update_faiss_index
    simp [hne]
  · unfold update_faiss_index
    simp [hne]
  · simp [List.length_map]
  · simp [List.length_map]
  · simp [List.length_map]
  · intro i hi
    rw [List.length_map] at hi
    have hmem : (joinRows db)[i] ∈ joinRows db := List.getElem_mem hi
    obtain ⟨e, he, hfe⟩ := List.mem_filterMap.mp hmem
    cases hc : db.chunks.find? (fun c => c.id == e.chunk_id) with
    | none =>
      rw [hc] at hfe
      simp at hfe
    | some c =>
      rw [hc] at hfe
      simp only [Option.some_bind] at hfe
      cases hd : db.documents.find? (fun d => d.id == c.document_id) with
      | none =>
        rw [hd] at hfe
        simp at hfe
      | some d =>
        rw [hd] at hfe
        simp only [Option.map_some'] at hfe
        have hrow := Option.some.inj hfe
        refine ⟨e, he, c, List.mem_of_find?_eq_some hc, d,
          List.mem_of_find?_eq_some hd, ?_, ?_, ?_, ?_, ?_, ?_⟩
        · simpa using List.find?_some hc
        · simpa using List.find?_some hd
        · simp only [List.getElem?_map, List.getElem?_eq_getElem hi, ← hrow,
            Option.map_some']
        · simp only [List.getElem?_map, List.getElem?_eq_getElem hi, ← hrow,
            Option.map_some']
        · simp only [List.getElem?_map, List.getElem?_eq_getElem hi, ← hrow,
            Option.map_some']
        · simp only [List.getElem?_map, List.getElem?_eq_getElem hi, ← hrow,
            Option.map_some']

/-- Witness for C5 at the one-chunk store. -/
theorem C5_witness :
    ∃ index meta,
      (update_faiss_index .ok oneChunkDB ⟨none, none⟩).faiss_index = some index ∧
      (update_faiss_index .ok oneChunkDB ⟨none, none⟩).chunks_meta = some meta := by
  obtain ⟨index, meta, h1, h2, -, -, -, -, -⟩ :=
    C5_index_aligned oneChunkDB ⟨none, none⟩ (by decide)
  exact ⟨index, meta, h1, h2⟩

/-! Claim C4: atomicity of document processing. -/

/-- Claim C4 (confirmed): whenever `process_document_for_rag` reports
failure it leaves both the tables and the artifact files exactly as
they were (the uncommitted transaction is rolled back); whenever it
reports success the tables hold all inserted rows; every injected
chunking, INSERT, encoding or commit failure is reported as the boolean
`false` — the total return type of the model reflects that the
`except` block never lets an exception escape. -/
theorem C4_atomic (model : PyStr → List ℤ) (fail : ProcFail)
    (document_id : Nat) (content : PyStr) (db : DB) (fs : FS) :
    ((process_document_for_rag model fail document_id content db fs).2.2 = false →
      (process_document_for_rag model fail document_id content db fs).1 = db ∧
      (process_document_for_rag model fail document_id content db fs).2.1 = fs) ∧
    ((process_document_for_rag model fail document_id content db fs).2.2 = true →
      ∃ chunks, chunk_text content 500 50 = .ok chunks ∧
        (process_document_for_rag model fail document_id content db fs).1.chunks =
          db.chunks ++ mkChunkRows document_id chunks db.nextChunkId ∧
        (process_document_for_rag model fail document_id content db fs).1.embeddings =
          db.embeddings ++
            mkEmbRows (chunks.map model) db.nextChunkId db.nextEmbId) ∧
    ((fail = .encodeFail ∨ fail = .commitFail) →
      (process_document_for_rag model fail document_id content db fs).2.2 = false) ∧
    (∀ j chunks, chunk_text content 500 50 = .ok chunks → j < chunks.length →
      (fail = .insertChunk j ∨ fail = .insertEmb j) →
      (process_document_for_rag model fail document_id content db fs).2.2 = false) := by
  unfold process_document_for_rag
  cases hct : chunk_text content 500 50 with
  | error e =>
    exact ⟨fun _ => ⟨rfl, rfl⟩, fun hcontra => by simp at hcontra, fun _ => rfl,
      fun _ _ _ _ _ => rfl⟩
  | ok chunks =>
    dsimp only
    by_cases h1 : hitsChunkInsert fail chunks.length = true
    · rw [if_pos h1]
      exact ⟨fun _ => ⟨rfl, rfl⟩, fun hcontra => by simp at hcontra, fun _ => rfl,
        fun _ _ _ _ _ => rfl⟩
    · rw [if_neg h1]
      by_cases h2 : fail = ProcFail.encodeFail
      · rw [if_pos h2]
        exact ⟨fun _ => ⟨rfl, rfl⟩, fun hcontra => by simp at hcontra, fun _ => rfl,
          fun _ _ _ _ _ => rfl⟩
      · rw [if_neg h2]
        by_cases h3 : hitsEmbInsert fail chunks.length = true
        · rw [if_pos h3]
          exact ⟨fun _ => ⟨rfl, rfl⟩, fun hcontra => by simp at hcontra, fun _ => rfl,
            fun _ _ _ _ _ => rfl⟩
        · rw [if_neg h3]
          by_cases h4 : fail = ProcFail.commitFail
          · rw [if_pos h4]
            exact ⟨fun _ => ⟨rfl, rfl⟩, fun hcontra => by simp at hcontra,
              fun _ => rfl, fun _ _ _ _ _ => rfl⟩
          · rw [if_neg h4]
            refine ⟨fun hcontra => by simp at hcontra,
              fun _ => ⟨chunks, rfl, rfl, rfl⟩, ?_, ?_⟩
            · intro hor
              rcases hor with h | h
              · exact absurd h h2
              · exact absurd h h4
            · intro j chunks2 hch hj hor
              have hc2 : chunks2 = chunks := (Except.ok.inj hch).symm
              subst hc2
              rcases hor with h | h
              · subst h
                simp [hitsChunkInsert, hj] at h1
              · subst h
                simp [hitsEmbInsert, hj] at h3

/-- Witness for C4: an injected embedding-model failure on the one-chunk
store is reported as `false`. -/
theorem C4_witness :
    (process_document_for_rag constModel .encodeFail 1 (str "hello world")
      oneChunkDB ⟨none, none⟩).2.2 = false :=
  (C4_atomic constModel .encodeFail 1 (str "hello world")
    oneChunkDB ⟨none, none⟩).2.2.1 (Or.inl rfl)

/-! Claim C9: the assembled context string. -/

/-- Folding the two string concatenations of the context loop equals
the starting string followed by the per-result blocks joined. -/
theorem context_foldl_eq_join (fmt : Option ℤ → PyStr) (l : List SearchResult) :
    ∀ init : PyStr,
      l.foldl (fun ctx r =>
        ctx ++ (str "From " ++ r.filename ++ str " (similarity: " ++
          fmt r.similarity_score ++ str "):\n") ++ (r.chunk_text ++ str "\n\n"))
        init =
      init ++ (l.map (fun r =>
        str "From " ++ r.filename ++ str " (similarity: " ++
          fmt r.similarity_score ++ str "):\n" ++ r.chunk_text ++ str "\n\n")).flatten := by
  induction l with
  | nil =>
    intro init
    simp
  | cons r l ih =>
    intro init
    rw [List.foldl_cons, ih, List.map_cons, List.flatten_cons]
    simp [List.append_assoc]

/-- Claim C9 (confirmed): `get_rag_context` returns the empty string
exactly when the underlying search returns no results; otherwise it
returns the header line followed, for each retrieved result in order,
by a block naming the result's source filename and similarity score and
then the chunk text, each block ending with a blank line. -/
theorem C9_context_format (model : PyStr → List ℤ) (fmt : Option ℤ → PyStr)
    (query : PyStr) (top_k : Nat) (fail : SearchFail) (fs : FS) :
    (search_documents model query top_k fail fs = [] →
      get_rag_context model fmt query top_k fail fs = []) ∧
    (search_documents model query top_k fail fs ≠ [] →
      get_rag_context model fmt query top_k fail fs =
        str "Relevant document excerpts:\n\n" ++
          ((search_documents model query top_k fail fs).map (fun r =>
            str "From " ++ r.filename ++ str " (similarity: " ++
              fmt r.similarity_score ++ str "):\n" ++ r.chunk_text ++
              str "\n\n")).flatten) := by
  constructor
  · intro h
    unfold get_rag_context
    simp [h]
  · intro h
    unfold get_rag_context
    have hne : (search_documents model query top_k fail fs).isEmpty = false :=
      List.isEmpty_eq_false.mpr h
    simp only [hne, Bool.false_eq_true, if_false]
    exact context_foldl_eq_join fmt (search_documents model query top_k fail fs) _

/-- Witness for C9: with both artifact files absent the search is empty
and the context is the empty string. -/
theorem C9_witness :
    get_rag_context constModel (fun _ => str "0.000") (str "query") 3 .ok
      ⟨none, none⟩ = [] :=
  (C9_context_format constModel (fun _ => str "0.000") (str "query") 3 .ok
    ⟨none, none⟩).1 rfl

/-! Claim C7: ranking order of search results. -/

/-- Ordering on result scores, with the padded minus infinity (`none`)
below every real score. -/
def scoreLE : Option ℤ → Option ℤ → Prop
  | none, _ => True
  | some _, none => False
  | some x, some y => x ≤ y

/-- Sortedness invariant of a returned entry list: a later entry never
has a larger score, and equal scores keep ascending labels. -/
def entLE (a b : Int × Option ℤ) : Prop :=
  scoreLE b.2 a.2 ∧ (a.2 = b.2 → a.1 ≤ b.1)

/-- The entry list returned by the index search is sorted: scores are
non-increasing and equal-score entries keep their row order. -/
theorem faissSearchEntries_pairwise (index : List (List ℤ)) (q : List ℤ)
    (k : Nat) : List.Pairwise entLE (faissSearchEntries index q k) := by
  unfold faissSearchEntries
  have hsorted : List.Sorted entryOrd
      ((index.enum.map (fun p => (p.1, dotQ q p.2))).insertionSort entryOrd) :=
    List.sorted_insertionSort entryOrd _
  have htop : List.Pairwise entryOrd
      (((index.enum.map (fun p => (p.1, dotQ q p.2))).insertionSort
        entryOrd).take k) :=
    List.Pairwise.sublist (List.take_sublist _ _) hsorted
  rw [List.pairwise_append]
  refine ⟨?_, ?_, ?_⟩
  · refine List.Pairwise.map _ ?_ htop
    intro a b hab
    constructor
    · show b.2 ≤ a.2
      rcases hab with hlt | ⟨heq, _⟩
      · exact le_of_lt hlt
      · exact le_of_eq heq.symm
    · intro heq
      have heq2 : a.2 = b.2 := Option.some.inj heq
      rcases hab with hlt | ⟨_, hle⟩
      · exact absurd heq2 (ne_of_gt hlt)
      · exact Int.ofNat_le.mpr hle
  · rw [List.pairwise_replicate]
    exact Or.inr ⟨trivial, fun _ => le_refl _⟩
  · intro a ha b hb
    have hb2 : b = (-1, none) := List.eq_of_mem_replicate hb
    subst hb2
    obtain ⟨p, hp, rfl⟩ := List.mem_map.mp ha
    exact ⟨trivial, fun hcontra => by simp at hcontra⟩

/-- Every label in the entry list is either the padding `-1` or a valid
row index of the searched index. -/
theorem faissSearchEntries_labels (index : List (List ℤ)) (q : List ℤ)
    (k : Nat) :
    ∀ e ∈ faissSearchEntries index q k,
      e.1 = -1 ∨ (0 ≤ e.1 ∧ e.1 < (index.length : Int)) := by
  intro e he
  unfold faissSearchEntries at he
  rcases List.mem_append.mp he with h | h
  · obtain ⟨p, hp, rfl⟩ := List.mem_map.mp h
    right
    have hp2 : p ∈ (index.enum.map (fun p => (p.1, dotQ q p.2))).insertionSort
        entryOrd := List.mem_of_mem_take hp
    have hp3 : p ∈ index.enum.map (fun p => (p.1, dotQ q p.2)) :=
      ((List.perm_insertionSort entryOrd _).mem_iff).mp hp2
    obtain ⟨p2, hp4, hpeq⟩ := List.mem_map.mp hp3
    have hlt : p2.1 < index.length := List.fst_lt_of_mem_enum hp4
    subst hpeq
    exact ⟨by simp, by simpa using Int.ofNat_lt.mpr hlt⟩
  · left
    rw [List.eq_of_mem_replicate h]

/-- The entry list always has exactly `k` entries, thanks to the `-1`
padding. -/
theorem faissSearchEntries_length (index : List (List ℤ)) (q : List ℤ)
    (k : Nat) : (faissSearchEntries index q k).length = k := by
  unfold faissSearchEntries
  rw [List.length_append, List.length_map, List.length_replicate,
    List.length_take, List.length_insertionSort, List.length_map,
    List.enum_length]
  omega

/-- Python indexing succeeds for the padding label `-1` into a nonempty
list and for every in-range nonnegative label. -/
theorem pyGet?_isSome {α : Type} (l : List α) (i : Int)
    (h : i = -1 ∨ (0 ≤ i ∧ i < (l.length : Int))) (hl : l ≠ []) :
    (pyGet? l i).isSome := by
  have hlen : 1 ≤ l.length := List.length_pos.mpr hl
  unfold pyGet?
  rcases h with rfl | ⟨h0, hlt⟩
  · rw [if_neg (by omega), if_pos (by simp; omega)]
    have hb : l.length - ((-(-1 : Int))).toNat < l.length := by
      simp
      omega
    rw [List.getElem?_eq_getElem hb]
    rfl
  · rw [if_pos h0]
    have hb : i.toNat < l.length := by omega
    rw [List.getElem?_eq_getElem hb]
    rfl

/-- If every entry passes the guard and all three metadata lookups
succeed, the result-building loop returns one result per entry, the
n-th carrying rank `i0 + n + 1` and the n-th entry's score. -/
theorem buildResults_total (meta : Metadata) :
    ∀ entries : List (Int × Option ℤ),
      (∀ e ∈ entries, e.1 < (meta.chunk_texts.length : Int) ∧
        (pyGet? meta.chunk_texts e.1).isSome ∧
        (pyGet? meta.filenames e.1).isSome ∧
        (pyGet? meta.chunk_ids e.1).isSome) →
      ∀ i0, ∃ rs, buildResults meta entries i0 = some rs ∧
        rs.length = entries.length ∧
        ∀ n, (hn : n < entries.length) →
          ∃ r, rs[n]? = some r ∧ r.rank = i0 + n + 1 ∧
            r.similarity_score = entries[n].2 := by
  intro entries
  induction entries with
  | nil =>
    intro _ i0
    exact ⟨[], rfl, rfl, fun n hn => absurd hn (by simp)⟩
  | cons e rest ih =>
    intro hok i0
    obtain ⟨idx, score⟩ := e
    obtain ⟨h1, h2, h3, h4⟩ := hok (idx, score) (List.mem_cons_self _ _)
    obtain ⟨t, ht⟩ := Option.isSome_iff_exists.mp h2
    obtain ⟨f, hf⟩ := Option.isSome_iff_exists.mp h3
    obtain ⟨cid, hcid⟩ := Option.isSome_iff_exists.mp h4
    obtain ⟨rs, hrs, hlen, hcorr⟩ :=
      ih (fun e2 he2 => hok e2 (List.mem_cons_of_mem _ he2)) (i0 + 1)
    refine ⟨(⟨t, f, cid, score, i0 + 1⟩ : SearchResult) :: rs, ?_, by simp [hlen], ?_⟩
    · unfold buildResults
      rw [if_pos h1, ht, hf, hcid, hrs]
      rfl
    · intro n hn
      cases n with
      | zero => exact ⟨⟨t, f, cid, score, i0 + 1⟩, by simp, by simp, by simp⟩
      | succ m =>
        have hm : m < rest.length := by
          rw [List.length_cons] at hn
          omega
        obtain ⟨r, hr, hrank, hscore⟩ := hcorr m hm
        refine ⟨r, by simpa using hr, by omega, ?_⟩
        rw [hscore]
        simp

/-- A successful rebuild over a nonempty join writes both files with
the three parallel projections of the join. -/
theorem update_ok_writes (db : DB) (fs : FS) (h : joinRows db ≠ []) :
    update_faiss_index .ok db fs =
      ⟨some ((joinRows db).map JoinRow.vec),
        some ⟨(joinRows db).map JoinRow.text, (joinRows db).map JoinRow.cid,
          (joinRows db).map JoinRow.fname⟩⟩ := by
  have hne : (joinRows db).isEmpty = false := List.isEmpty_eq_false.mpr h
  unfold update_faiss_index
  simp [hne]

/-- A search performed right after a successful index rebuild. -/
def searchAfterRebuild (model : PyStr → List ℤ) (query : PyStr) (k : Nat)
    (db : DB) (fs0 : FS) : List SearchResult :=
  search_documents model query k .ok (update_faiss_index .ok db fs0)

/-- Claim C7 (confirmed): searching after a successful rebuild over a
nonempty store, the result list lines up one-to-one with the sorted
entry list of the index search; every result's 1-based rank equals its
position in the list; similarity scores are non-increasing along the
list (the padded minus-infinity scores come last); and entries with
equal scores keep their original row order (stable sort). -/
theorem C7_ranked (model : PyStr → List ℤ) (query : PyStr) (k : Nat)
    (db : DB) (fs0 : FS) (h : joinRows db ≠ []) :
    (searchAfterRebuild model query k db fs0).length =
      (faissSearchEntries ((joinRows db).map JoinRow.vec) (model query) k).length ∧
    (∀ n, (hn : n < (searchAfterRebuild model query k db fs0).length) →
      (searchAfterRebuild model query k db fs0)[n].rank = n + 1) ∧
    (∀ n, (hn : n < (searchAfterRebuild model query k db fs0).length) →
      ∃ e, (faissSearchEntries ((joinRows db).map JoinRow.vec)
          (model query) k)[n]? = some e ∧
        (searchAfterRebuild model query k db fs0)[n].similarity_score = e.2) ∧
    (∀ m n, (hmn : m < n) →
      (hn : n < (searchAfterRebuild model query k db fs0).length) →
      scoreLE ((searchAfterRebuild model query k db fs0)[n]).similarity_score
        ((searchAfterRebuild model query k db fs0)[m]).similarity_score) ∧
    (∀ (m n : Nat) (em en : Int × Option ℤ), m < n →
      (faissSearchEntries ((joinRows db).map JoinRow.vec)
        (model query) k)[m]? = some em →
      (faissSearchEntries ((joinRows db).map JoinRow.vec)
        (model query) k)[n]? = some en →
      em.2 = en.2 → em.1 ≤ en.1) := by
  have hup := update_ok_writes db fs0 h
  have hn1 : 1 ≤ (joinRows db).length := List.length_pos.mpr h
  have hok : ∀ e ∈ faissSearchEntries ((joinRows db).map JoinRow.vec)
      (model query) k,
      e.1 < (((⟨(joinRows db).map JoinRow.text, (joinRows db).map JoinRow.cid,
        (joinRows db).map JoinRow.fname⟩ : Metadata)).chunk_texts.length : Int) ∧
      (pyGet? ((⟨(joinRows db).map JoinRow.text, (joinRows db).map JoinRow.cid,
        (joinRows db).map JoinRow.fname⟩ : Metadata)).chunk_texts e.1).isSome ∧
      (pyGet? ((⟨(joinRows db).map JoinRow.text, (joinRows db).map JoinRow.cid,
        (joinRows db).map JoinRow.fname⟩ : Metadata)).filenames e.1).isSome ∧
      (pyGet? ((⟨(joinRows db).map JoinRow.text, (joinRows db).map JoinRow.cid,
        (joinRows db).map JoinRow.fname⟩ : Metadata)).chunk_ids e.1).isSome := by
    intro e he
    have hlab := faissSearchEntries_labels _ _ _ e he
    rw [List.length_map] at hlab
    have htne : (joinRows db).map JoinRow.text ≠ [] := by
      intro hx
      rw [List.map_eq_nil_iff] at hx
      exact h hx
    have hine : (joinRows db).map JoinRow.cid ≠ [] := by
      intro hx
      rw [List.map_eq_nil_iff] at hx
      exact h hx
    have hfne : (joinRows db).map JoinRow.fname ≠ [] := by
      intro hx
      rw [List.map_eq_nil_iff] at hx
      exact h hx
    refine ⟨?_, ?_, ?_, ?_⟩
    · simp only [List.length_map]
      rcases hlab with h1 | ⟨h1, h2⟩
      · rw [h1]
        omega
      · exact h2
    · exact pyGet?_isSome _ _ (by simpa [List.length_map] using hlab) htne
    · exact pyGet?_isSome _ _ (by simpa [List.length_map] using hlab) hfne
    · exact pyGet?_isSome _ _ (by simpa [List.length_map] using hlab) hine
  obtain ⟨rs, hbr, hlen, hcorr⟩ := buildResults_total _ _ hok 0
  have hsearch : searchAfterRebuild model query k db fs0 = rs := by
    unfold searchAfterRebuild
    rw [hup]
    unfold search_documents
    dsimp only
    rw [hbr]
  subst hsearch
  have hpw := faissSearchEntries_pairwise ((joinRows db).map JoinRow.vec)
    (model query) k
  rw [List.pairwise_iff_get] at hpw
  refine ⟨hlen, ?_, ?_, ?_, ?_⟩
  · intro n hn
    have hn2 : n < (faissSearchEntries ((joinRows db).map JoinRow.vec)
        (model query) k).length := by omega
    obtain ⟨r, hr, hrank, -⟩ := hcorr n hn2
    rw [List.getElem?_eq_getElem hn] at hr
    have hre := Option.some.inj hr
    simp only [hre, hrank]
    omega
  · intro n hn
    have hn2 : n < (faissSearchEntries ((joinRows db).map JoinRow.vec)
        (model query) k).length := by omega
    obtain ⟨r, hr, -, hscore⟩ := hcorr n hn2
    rw [List.getElem?_eq_getElem hn] at hr
    have hre := Option.some.inj hr
    refine ⟨_, List.getElem?_eq_getElem hn2, ?_⟩
    simp only [hre, hscore]
  · intro m n hmn hn
    have hm : m < (searchAfterRebuild model query k db fs0).length := by omega
    have hn2 : n < (faissSearchEntries ((joinRows db).map JoinRow.vec)
        (model query) k).length := by omega
    have hm2 : m < (faissSearchEntries ((joinRows db).map JoinRow.vec)
        (model query) k).length := by omega
    obtain ⟨rn, hrn, -, hsn⟩ := hcorr n hn2
    obtain ⟨rm, hrm, -, hsm⟩ := hcorr m hm2
    rw [List.getElem?_eq_getElem hn] at hrn
    rw [List.getElem?_eq_getElem hm] at hrm
    have hren := Option.some.inj hrn
    have hrem := Option.some.inj hrm
    simp only [hren, hrem, hsn, hsm]
    exact (hpw ⟨m, hm2⟩ ⟨n, hn2⟩ hmn).1
  · intro m n em en hmn hm hn heq
    obtain ⟨hltm, hreqm⟩ := List.getElem?_eq_some_iff.mp hm
    obtain ⟨hltn, hreqn⟩ := List.getElem?_eq_some_iff.mp hn
    subst hreqm
    subst hreqn
    exact (hpw ⟨m, hltm⟩ ⟨n, hltn⟩ hmn).2 heq

/-- Witness for C7 at the one-chunk store. -/
theorem C7_witness :
    (searchAfterRebuild constModel (str "query") 3 oneChunkDB ⟨none, none⟩).length =
      (faissSearchEntries ((joinRows oneChunkDB).map JoinRow.vec)
        (constModel (str "query")) 3).length :=
  (C7_ranked constModel (str "query") 3 oneChunkDB ⟨none, none⟩ (by decide)).1
